import Mathlib

/-!
Verification development for a network intrusion-detection engine.

The program under study assembles per-flow features (basic numeric features
plus six per-host sliding-window features), applies four fixed heuristic
rules plus an optional classifier, and emits an ordered list of detections,
either in batch mode or streaming (row-by-row) mode.

Shallow embedding conventions:
* Numeric record fields and window state are modelled with `ℚ` (every IEEE
  float is a rational, so this is an exact idealization of the float data);
  the one genuinely irrational quantity, the beacon coefficient of variation
  (a standard deviation, i.e. a square root), lives in `ℝ`, as do matrix
  entries, classifier probabilities and detection scores.
* Timestamps are seconds (pandas datetimes are fixed-resolution counts).
* The classifier is an abstract function returning `Option` (`none` models
  `predict_proba` raising an exception).
* A `RawRec.row_id` of `none` models a missing / NaN `row_id` value; the
  `hasRowId` flag models whether the CSV has a `row_id` column at all
  (pandas fills an absent column with `''`, which is not null, while a
  missing value in a present column becomes NaN).
* Per-record Python exceptions that the code catches are modelled by the
  corresponding `Option`/branch structure at the single modelled failure
  point (`int()` of a NaN `row_id` in streaming mode).
-/

set_option maxRecDepth 10000

/-- One input flow record, after CSV parsing: the columns the loader works
with.  `row_id = none` models a missing (NaN) value. -/
structure RawRec where
  ts : ℚ
  src_ip : String
  dst_ip : String
  src_port : ℚ
  dst_port : ℚ
  proto : String
  tcp_flags : String
  bytes : ℚ
  packets : ℚ
  duration : ℚ
  row_id : Option ℤ
deriving DecidableEq, Repr

/-- Python `int()` truncation toward zero of a rational. -/
def truncInt (q : ℚ) : ℤ := Int.tdiv q.num (q.den : ℤ)

/-- `np.mean` of a list of rationals (0 on the empty list, never hit). -/
def meanQ (l : List ℚ) : ℚ := l.sum / (l.length : ℚ)

/-- Population variance (`np.std` squared, ddof = 0). -/
def varQ (l : List ℚ) : ℚ := ((l.map (fun x => (x - meanQ l) ^ 2)).sum) / (l.length : ℚ)

/-- `np.std` (population standard deviation) of a rational list, in `ℝ`. -/
noncomputable def stdR (l : List ℚ) : ℝ := Real.sqrt ((varQ l : ℚ) : ℝ)

/-- `np.diff`: consecutive differences. -/
def diffsOf (l : List ℚ) : List ℚ := List.zipWith (fun a b => b - a) l l.tail

/-- Hour-of-day of a timestamp given in seconds (`ts.dt.hour`). -/
def hourOf (ts : ℚ) : ℚ := ((⌊ts / 3600⌋ % 24 : ℤ) : ℚ)

/-- Assign `row_id`s 1, 2, ... (the loader's `range(1, len(df)+1)`). -/
def assignIds : ℤ → List RawRec → List RawRec
  | _, [] => []
  | n, r :: rs => { r with row_id := some n } :: assignIds (n + 1) rs

/-- Stable insertion into a ts-sorted list (models pandas `sort_values('ts')`;
ties keep input order). -/
def insertByTs (r : RawRec) : List RawRec → List RawRec
  | [] => [r]
  | x :: xs => if x.ts < r.ts then x :: insertByTs r xs else r :: x :: xs

/-- Stable sort by timestamp. -/
def sortByTs (l : List RawRec) : List RawRec := l.foldr insertByTs []

/-- Loader normalization shared by `load_flows` and `load_flows_from_df`:
if the `row_id` column is absent, pandas fills it with `''` (modelled as all
`none`, and `''` is not null so the ids are NOT reassigned); if the column is
present and any value is null, ids are reassigned `1..n` in input order;
then the frame is sorted by `ts`. -/
def load_flows (hasRowId : Bool) (raws : List RawRec) : List RawRec :=
  let filled := if hasRowId then raws else raws.map (fun r => { r with row_id := none })
  let withIds :=
    if hasRowId && raws.any (fun r => r.row_id.isNone) then assignIds 1 filled else filled
  sortByTs withIds

/-- An outbound window entry `(ts, dst_port, dst, bytes)`. -/
structure OutEvt where
  ts : ℚ
  port : ℤ
  peer : String
  bytes : ℚ
deriving DecidableEq, Repr

/-- An inbound window entry `(ts, src, src_port, bytes)`. -/
structure InEvt where
  ts : ℚ
  peer : String
  sport : ℚ
  bytes : ℚ
deriving DecidableEq, Repr

/-- Per-host window state: the `out_windows` / `in_windows` defaultdicts of
deques (a missing host maps to the empty deque). -/
structure WState where
  out : String → List OutEvt
  inb : String → List InEvt

def WState.init : WState := ⟨fun _ => [], fun _ => []⟩

/-- Pointwise update of a host-indexed map. -/
def updF {α : Type} (f : String → α) (k : String) (v : α) : String → α :=
  fun x => if x = k then v else f x

/-- `evict_deque`: pop from the front while the front timestamp is `< θ`. -/
def evictOut (θ : ℚ) (l : List OutEvt) : List OutEvt := l.dropWhile (fun e => e.ts < θ)

def evictIn (θ : ℚ) (l : List InEvt) : List InEvt := l.dropWhile (fun e => e.ts < θ)

def outEvtOf (r : RawRec) : OutEvt := ⟨r.ts, truncInt r.dst_port, r.dst_ip, r.bytes⟩

def inEvtOf (r : RawRec) : InEvt := ⟨r.ts, r.src_ip, r.src_port, r.bytes⟩

/-- The four evictions performed for each incoming flow: `out_windows[src]`,
`in_windows[src]`, `out_windows[dst]`, `in_windows[dst]`, all at threshold
`ts - window_seconds`. -/
def evictPhase (W : ℚ) (r : RawRec) (st : WState) : WState :=
  let θ := r.ts - W
  let o1 := updF st.out r.src_ip (evictOut θ (st.out r.src_ip))
  let i1 := updF st.inb r.src_ip (evictIn θ (st.inb r.src_ip))
  let o2 := updF o1 r.dst_ip (evictOut θ (o1 r.dst_ip))
  let i2 := updF i1 r.dst_ip (evictIn θ (i1 r.dst_ip))
  ⟨o2, i2⟩

/-- Record the current flow: append an outbound event under `src` and an
inbound event under `dst`. -/
def recordPhase (r : RawRec) (st : WState) : WState :=
  ⟨updF st.out r.src_ip (st.out r.src_ip ++ [outEvtOf r]),
   updF st.inb r.dst_ip (st.inb r.dst_ip ++ [inEvtOf r])⟩

/-- The six windowed features of one row; `row_id` tags the row for the later
merge.  `beacon_cv_window` is real-valued (it divides a standard deviation by
a mean). -/
structure WinRow where
  row_id : Option ℤ
  unique_dst_ports_window : ℚ
  connections_same_dst_window : ℚ
  outbound_bytes_window : ℚ
  inbound_bytes_window : ℚ
  beacon_cv_window : ℝ
  recent_conn_count : ℚ

/-- The feature computation performed against the post-eviction state
(features include the current flow). -/
noncomputable def winFeats (st : WState) (r : RawRec) : WinRow :=
  let dq := st.out r.src_ip
  let iq := st.inb r.src_ip
  let times := dq.map (fun e => e.ts) ++ [r.ts]
  { row_id := r.row_id
    unique_dst_ports_window := (((truncInt r.dst_port :: dq.map (fun e => e.port)).dedup.length : ℕ) : ℚ)
    connections_same_dst_window := (((dq.filter (fun e => e.peer = r.dst_ip)).length : ℕ) : ℚ) + 1
    outbound_bytes_window := (dq.map (fun e => e.bytes)).sum + r.bytes
    inbound_bytes_window := (iq.map (fun e => e.bytes)).sum
    beacon_cv_window :=
      if 3 ≤ times.length then
        (if 0 < meanQ (diffsOf times) then stdR (diffsOf times) / ((meanQ (diffsOf times) : ℚ) : ℝ)
         else 0)
      else 1
    recent_conn_count := ((dq.length : ℕ) : ℚ) + 1 }

/-- One iteration of the `windowed_host_features` loop. -/
noncomputable def winStep (W : ℚ) (st : WState) (r : RawRec) : WState × WinRow :=
  let st1 := evictPhase W r st
  (recordPhase r st1, winFeats st1 r)

noncomputable def winFold (W : ℚ) (st : WState) : List RawRec → WState × List WinRow
  | [] => (st, [])
  | r :: rs =>
    let p := winStep W st r
    let q := winFold W p.1 rs
    (q.1, p.2 :: q.2)

/-- `windowed_host_features`: the list of six-feature rows, one per input row. -/
noncomputable def windowed_host_features (df : List RawRec) (W : ℚ) : List WinRow :=
  (winFold W WState.init df).2

/-- One row of the basic-features frame: the `row_id`/`src_ip`/`dst_ip`
columns carried through to the merge, plus the named numeric columns. -/
structure BasicRow where
  row_id : Option ℤ
  src_ip : String
  dst_ip : String
  vals : List (String × ℚ)
deriving DecidableEq, Repr

/-- Stable insertion into a `<`-sorted list of strings. -/
def insertStr (s : String) : List String → List String
  | [] => [s]
  | x :: xs => if x < s then x :: insertStr s xs else s :: x :: xs

/-- Ascending sort of strings (`pd.get_dummies` orders its indicator columns
by sorted distinct value). -/
def sortStrs (l : List String) : List String := l.foldr insertStr []

/-- `basic_features`: per-flow numeric features plus one-hot indicator
columns over the batch's observed `proto` / `tcp_flags` vocabulary.
Returns the rows and the list of indicator column names. -/
def basic_features (df : List RawRec) : List BasicRow × List String :=
  let protoVals := sortStrs (df.map (fun r => r.proto)).dedup
  let flagVals := sortStrs (df.map (fun r => r.tcp_flags)).dedup
  let rows := df.map (fun r =>
    { row_id := r.row_id, src_ip := r.src_ip, dst_ip := r.dst_ip
      vals :=
        [("src_port", r.src_port), ("dst_port", r.dst_port), ("bytes", r.bytes),
         ("packets", r.packets), ("duration", r.duration),
         ("bytes_per_sec", if 0 < r.duration then r.bytes / r.duration else 0),
         ("pkts_per_sec", if 0 < r.duration then r.packets / r.duration else 0),
         ("byte_pkts_ratio", if 0 < r.packets then r.bytes / r.packets else 0),
         ("hour", hourOf r.ts)]
        ++ protoVals.map (fun v => ("proto_" ++ v, if r.proto = v then (1 : ℚ) else 0))
        ++ flagVals.map (fun v => ("flags_" ++ v, if r.tcp_flags = v then (1 : ℚ) else 0)) })
  let catCols := protoVals.map (fun v => "proto_" ++ v) ++ flagVals.map (fun v => "flags_" ++ v)
  (rows, catCols)

/-- The names of the nine fixed numeric basic-feature columns, in frame order. -/
def basicNumKeys : List String :=
  ["src_port", "dst_port", "bytes", "packets", "duration",
   "bytes_per_sec", "pkts_per_sec", "byte_pkts_ratio", "hour"]

/-- The names of the six windowed-feature columns, in frame order. -/
def winKeys : List String :=
  ["unique_dst_ports_window", "connections_same_dst_window", "outbound_bytes_window",
   "inbound_bytes_window", "beacon_cv_window", "recent_conn_count"]

/-- A feature-matrix row: an ordered association list from column name to
real value (what `X.iloc[i].to_dict()` hands to the heuristics). -/
abbrev MRow : Type := List (String × ℝ)

/-- The six windowed columns of one `WinRow`, as matrix entries. -/
noncomputable def winVals (w : WinRow) : MRow :=
  [("unique_dst_ports_window", (w.unique_dst_ports_window : ℝ)),
   ("connections_same_dst_window", (w.connections_same_dst_window : ℝ)),
   ("outbound_bytes_window", (w.outbound_bytes_window : ℝ)),
   ("inbound_bytes_window", (w.inbound_bytes_window : ℝ)),
   ("beacon_cv_window", w.beacon_cv_window),
   ("recent_conn_count", (w.recent_conn_count : ℝ))]

/-- `assemble_features`: basic features, then the windowed features (zeroed
placeholders when `src_ip` has at most one distinct value over the whole
input), merged on `row_id` (pandas left merge: each basic row pairs with
every windowed row of equal `row_id`, NaN-filled-with-0 when none matches),
restricted to the feature columns.  Returns the matrix and the ordered
feature-column list. -/
noncomputable def assemble_features (df : List RawRec) (W : ℚ) : List MRow × List String :=
  let bf := basic_features df
  let basicRows := bf.1
  let srcUseful := 1 < (df.map (fun r => r.src_ip)).dedup.length
  let winRows : List WinRow :=
    if srcUseful then windowed_host_features df W
    else basicRows.map (fun b => ⟨b.row_id, 0, 0, 0, 0, 0, 0⟩)
  let merged := basicRows.flatMap (fun b =>
    let ms := winRows.filter (fun w => w.row_id = b.row_id)
    if ms.isEmpty then
      [b.vals.map (fun p => (p.1, (p.2 : ℝ))) ++ winKeys.map (fun k => (k, (0 : ℝ)))]
    else ms.map (fun w => b.vals.map (fun p => (p.1, (p.2 : ℝ))) ++ winVals w))
  (merged, basicNumKeys ++ bf.2 ++ winKeys)

/-- Python `row_features.get(k, d)` over a matrix row. -/
def getF (rf : MRow) (k : String) (d : ℝ) : ℝ :=
  match rf.find? (fun p => p.1 = k) with
  | some p => p.2
  | none => d

/-- A diagnostic value in a detection's `explain` mapping. -/
inductive EVal where
  | num (x : ℝ)
  | vec (xs : List ℝ)

/-- A detection before the `row_id` tag is attached. -/
structure Det0 where
  reason : String
  score : ℝ
  class_guess : String
  explain : List (String × EVal)

/-- A detection as emitted by the pipelines. -/
structure Det where
  row_id : ℤ
  reason : String
  score : ℝ
  class_guess : String
  explain : List (String × EVal)

/-- `apply_heuristics`: the four fixed threshold rules, evaluated on one
feature row; missing features default to 0, except `beacon_cv_window`
which defaults to 1.0. -/
noncomputable def apply_heuristics (rf : MRow) : List Det0 :=
  let up := getF rf "unique_dst_ports_window" 0
  let bf := getF rf "connections_same_dst_window" 0
  let outb := getF rf "outbound_bytes_window" 0
  let inb := getF rf "inbound_bytes_window" 0
  let cv := getF rf "beacon_cv_window" 1
  let cnt := getF rf "recent_conn_count" 0
  (if 20 ≤ up then
    [⟨"Port_Scan_Rule", min 1 (up / (20 * 2)), "port_scan", [("unique_ports", .num up)]⟩]
   else [])
  ++ (if 50 ≤ bf then
    [⟨"Brute_Force_Rule", min 1 (bf / (50 * 2)), "brute_force",
      [("connections_to_same_dst", .num bf)]⟩]
   else [])
  ++ (if 1000000 ≤ outb ∨ 10 ≤ outb / (inb + 1) then
    [⟨"Exfiltration_Rule", 1, "exfiltration",
      [("outbound_bytes", .num outb), ("inbound_bytes", .num inb)]⟩]
   else [])
  ++ (if cv ≤ 0.2 ∧ 5 ≤ cnt then
    [⟨"Beaconing_Rule", min 1 ((5 / max 1 cnt) * (1 - cv)), "beaconing",
      [("beacon_cv", .num cv), ("recent_count", .num cnt)]⟩]
   else [])

/-- The column-alignment loop of `run_batch` / `run_streaming`:
`for c in model_cols: if c not in X.columns: X[c] = 0.0`.  State: the
frame's column list and its rows. -/
def addMissing (mc : List String) (cols : List String) (rows : List MRow) :
    List String × List MRow :=
  mc.foldl
    (fun st c =>
      if c ∈ st.1 then st else (st.1 ++ [c], st.2.map (fun r => r ++ [(c, 0)])))
    (cols, rows)

/-- `X = X[model_cols]` after the zero-fill loop: reindex every row to the
model's expected columns, in the model's order. -/
def align (mc : List String) (cols : List String) (rows : List MRow) : List MRow :=
  ((addMissing mc cols rows).2).map (fun r => mc.map (fun c => (c, getF r c 0)))

/-- `np.argmax` scan: index of the first maximum.  `i` is the index of the
next element, `bi`/`bv` the best index and value so far. -/
noncomputable def argmaxAux (i : ℕ) (bi : ℕ) (bv : ℝ) : List ℝ → ℕ
  | [] => bi
  | x :: xs => if bv < x then argmaxAux (i + 1) i x xs else argmaxAux (i + 1) bi bv xs

/-- `np.argmax`; `none` on the empty list (where numpy raises). -/
noncomputable def argmaxR : List ℝ → Option ℕ
  | [] => none
  | x :: xs => some (argmaxAux 1 0 x xs)

/-- The ML fusion step for row `i`: take the probability row, its top class
and probability, resolve the label, and emit an `ML_Detection` when the top
probability is at least 0.5.  Any failure (no probabilities, row index out of
range, empty row, label index out of range) yields no ML detection. -/
noncomputable def mlDetect (proba : Option (List (List ℝ))) (enc : Option (List String))
    (i : ℕ) : List Det0 :=
  match proba with
  | none => []
  | some probaM =>
    match probaM.get? i with
    | none => []
    | some probs =>
      match argmaxR probs with
      | none => []
      | some ti =>
        let tp := probs.getD ti 0
        match (match enc with | none => some (toString ti) | some cls => cls.get? ti) with
        | none => []
        | some cg =>
          if 0.5 ≤ tp then
            [⟨"ML_Detection", tp, cg, [("ml_probabilities", .vec probs)]⟩]
          else []

/-- Attach the row id (`{'row_id': row_id, **d}`). -/
def tagDet (rid : ℤ) (d : Det0) : Det :=
  ⟨rid, d.reason, d.score, d.class_guess, d.explain⟩

/-- A classifier: `predict_proba` on a feature matrix; `none` models an
exception. -/
abbrev Clf : Type := List MRow → Option (List (List ℝ))

/-- The always-failing classifier (`predict_proba` raises). -/
def clfFail : Clf := fun _ => none

/-- `run_batch`: load and normalize, assemble features, align the matrix to
the model's expected columns, invoke the classifier once (failure caught),
then per input row emit heuristic detections (computed on the ALIGNED row)
followed by the ML detection.  The whole run fails (`none`) iff some
normalized `row_id` is still null-like (`int('')` raises), which happens
exactly when the CSV has no `row_id` column. -/
noncomputable def run_batch (clf : Clf) (enc : Option (List String))
    (modelCols : Option (List String)) (W : ℚ) (hasRowId : Bool)
    (raws : List RawRec) : Option (List Det) :=
  let df := load_flows hasRowId raws
  let af := assemble_features df W
  let mcols := modelCols.getD af.2
  let Xa := align mcols af.2 af.1
  let proba := clf Xa
  if df.all (fun r => r.row_id.isSome) then
    some (df.enum.flatMap (fun p =>
      let rf := Xa.getD p.1 []
      let heur := apply_heuristics rf
      let ml := mlDetect proba enc p.1
      (heur ++ ml).map (tagDet (p.2.row_id.getD 0))))
  else none

/-- One streaming iteration: append the arriving record to the retained
buffer, re-normalize and re-assemble over the whole buffer, evaluate the
heuristics on the newest (last) feature row, run the classifier over the
aligned buffer matrix (failure caught, yielding no ML detection), extract
the row id from the RAW arriving record (`int()` of a NaN value raises, and
the record is then skipped with the buffer left as appended and NOT
trimmed), emit the detections and trim the buffer to the trailing window. -/
noncomputable def streamStep (clf : Clf) (enc : Option (List String))
    (modelCols : Option (List String)) (W : ℚ) (hasRowId : Bool)
    (st : List RawRec × List Det) (r : RawRec) : List RawRec × List Det :=
  let buffer := st.1 ++ [r]
  let df := load_flows hasRowId buffer
  let af := assemble_features df W
  match af.1.getLast? with
  | none => (buffer, st.2)
  | some rf =>
    let heur := apply_heuristics rf
    let lastIdx := af.1.length - 1
    let Xa := match modelCols with
      | some mc => align mc af.2 af.1
      | none => af.1
    let ml := mlDetect (clf Xa) enc lastIdx
    match (if hasRowId then r.row_id else some (-1)) with
    | none => (buffer, st.2)
    | some rid =>
      (buffer.filter (fun q => r.ts - W ≤ q.ts), st.2 ++ (heur ++ ml).map (tagDet rid))

/-- `run_streaming`: fold the streaming step over the records in arrival
order, starting from an empty buffer, returning the cumulative detections. -/
noncomputable def run_streaming (clf : Clf) (enc : Option (List String))
    (modelCols : Option (List String)) (W : ℚ) (hasRowId : Bool)
    (raws : List RawRec) : List Det :=
  (raws.foldl (streamStep clf enc modelCols W hasRowId) ([], [])).2

/-! ### Spec-side window definitions (for the eviction and beacon claims) -/

/-- Records arrive in non-decreasing timestamp order (the loader sorts by
`ts`, and the data model promises this for any single run). -/
def SortedTs (l : List RawRec) : Prop := l.Pairwise (fun a b => a.ts ≤ b.ts)

/-- The outbound events host `h` accumulates from a prefix of the input:
one per flow with source `h`, in order. -/
def priorOut (pre : List RawRec) (h : String) : List OutEvt :=
  (pre.filter (fun q => q.src_ip = h)).map outEvtOf

/-- The inbound events host `h` accumulates from a prefix of the input:
one per flow with destination `h`, in order. -/
def priorIn (pre : List RawRec) (h : String) : List InEvt :=
  (pre.filter (fun q => q.dst_ip = h)).map inEvtOf

/-- The window state after the first `i` rows have been processed. -/
noncomputable def stateAt (W : ℚ) (df : List RawRec) (i : ℕ) : WState :=
  (winFold W WState.init (df.take i)).1

/-- Declarative window timestamps for a flow `r` arriving after prefix
`pre`: the timestamps of the prior flows from the same source within the
trailing window, then the current flow's timestamp. -/
def winTimes (pre : List RawRec) (r : RawRec) (W : ℚ) : List ℚ :=
  ((pre.filter (fun q => q.src_ip = r.src_ip ∧ r.ts - W ≤ q.ts)).map (fun q => q.ts)) ++ [r.ts]

/-- The beacon coefficient of variation as the specification words it:
`1.0` with fewer than 3 timestamps, otherwise `stddev(deltas)/mean(deltas)`
when the mean is positive and `0.0` otherwise. -/
noncomputable def specCv (pre : List RawRec) (r : RawRec) (W : ℚ) : ℝ :=
  let ts := winTimes pre r W
  if ts.length < 3 then 1
  else if 0 < meanQ (diffsOf ts) then stdR (diffsOf ts) / ((meanQ (diffsOf ts) : ℚ) : ℝ)
  else 0

/-- The window-state invariant tying the per-host deques to the declarative
event lists: each deque is a suffix of the host's full event list, and every
dropped event is older than the last processed timestamp minus the window. -/
def WInv (W : ℚ) (pre : List RawRec) (st : WState) : Prop :=
  (∀ h, ∃ A, priorOut pre h = A ++ st.out h ∧
    ∀ e ∈ A, ∀ q ∈ pre.getLast?, e.ts < q.ts - W) ∧
  (∀ h, ∃ A, priorIn pre h = A ++ st.inb h ∧
    ∀ e ∈ A, ∀ q ∈ pre.getLast?, e.ts < q.ts - W)

/-- Concrete scenario records: host `a` sends to `b` at t = 0, 10, 70. -/
def recC0 : RawRec := ⟨0, "a", "b", 1, 5, "t", "S", 100, 1, 1, some 1⟩

def recC1 : RawRec := ⟨10, "a", "b", 1, 6, "t", "S", 100, 1, 1, some 2⟩

def recC2 : RawRec := ⟨70, "a", "b", 1, 7, "t", "S", 100, 1, 1, some 3⟩

/-- A streaming record whose `row_id` value is missing (NaN): `int()` on it
raises, so the record is skipped. -/
def recBad : RawRec := ⟨0, "a", "b", 1, 2, "t", "S", 100, 1, 1, none⟩

/-- Two flows from two distinct sources, far apart in time. -/
def recA1 : RawRec := ⟨0, "a", "b", 1, 2, "t", "S", 100, 1, 1, some 1⟩

def recA2 : RawRec := ⟨1000, "c", "b", 3, 4, "t", "S", 100, 1, 1, some 2⟩

/-- The exfiltration detection the batch pipeline emits for `recA1`. -/
noncomputable def detA1 : Det :=
  ⟨1, "Exfiltration_Rule", 1, "exfiltration",
   [("outbound_bytes", EVal.num 100), ("inbound_bytes", EVal.num 0)]⟩

/-- The exfiltration detection both pipelines emit for `recA2`. -/
noncomputable def detA2 : Det :=
  ⟨2, "Exfiltration_Rule", 1, "exfiltration",
   [("outbound_bytes", EVal.num 100), ("inbound_bytes", EVal.num 0)]⟩

/-- The feature-matrix row the batch pipeline assembles for `recA1`. -/
noncomputable def xA1 : MRow :=
  [("src_port", 1), ("dst_port", 2), ("bytes", 100), ("packets", 1), ("duration", 1),
   ("bytes_per_sec", 100), ("pkts_per_sec", 1), ("byte_pkts_ratio", 100), ("hour", 0),
   ("proto_t", 1), ("flags_S", 1),
   ("unique_dst_ports_window", 1), ("connections_same_dst_window", 1),
   ("outbound_bytes_window", 100), ("inbound_bytes_window", 0),
   ("beacon_cv_window", 1), ("recent_conn_count", 1)]

/-- The feature-matrix row the batch pipeline assembles for `recA2`. -/
noncomputable def xA2 : MRow :=
  [("src_port", 3), ("dst_port", 4), ("bytes", 100), ("packets", 1), ("duration", 1),
   ("bytes_per_sec", 100), ("pkts_per_sec", 1), ("byte_pkts_ratio", 100), ("hour", 0),
   ("proto_t", 1), ("flags_S", 1),
   ("unique_dst_ports_window", 1), ("connections_same_dst_window", 1),
   ("outbound_bytes_window", 100), ("inbound_bytes_window", 0),
   ("beacon_cv_window", 1), ("recent_conn_count", 1)]

/-- The feature row streaming assembles for `recA1` alone: the one-record
buffer has a single distinct `src_ip`, so windowing is disabled and the six
windowed features are zero. -/
noncomputable def yA1 : MRow :=
  [("src_port", 1), ("dst_port", 2), ("bytes", 100), ("packets", 1), ("duration", 1),
   ("bytes_per_sec", 100), ("pkts_per_sec", 1), ("byte_pkts_ratio", 100), ("hour", 0),
   ("proto_t", 1), ("flags_S", 1),
   ("unique_dst_ports_window", 0), ("connections_same_dst_window", 0),
   ("outbound_bytes_window", 0), ("inbound_bytes_window", 0),
   ("beacon_cv_window", 0), ("recent_conn_count", 0)]

/-- The assembled feature-column list for the two-record input. -/
def colsA : List String :=
  ["src_port", "dst_port", "bytes", "packets", "duration", "bytes_per_sec", "pkts_per_sec",
   "byte_pkts_ratio", "hour", "proto_t", "flags_S", "unique_dst_ports_window",
   "connections_same_dst_window", "outbound_bytes_window", "inbound_bytes_window",
   "beacon_cv_window", "recent_conn_count"]

/-! ### Helper lemmas on `getF` and `apply_heuristics` -/

theorem getF_append (a b : MRow) (k : String) (d : ℝ) :
    getF (a ++ b) k d = getF a k (getF b k d) := by
  induction a with
  | nil => simp [getF]
  | cons p a ih =>
    by_cases h : p.1 = k <;> simp [getF, List.find?, h] at ih ⊢ <;> exact ih

theorem getF_nil (k : String) (d : ℝ) : getF [] k d = d := rfl

theorem filter_ite_pos {c : Prop} [Decidable c] (p : Det0 → Bool) (d : Det0)
    (h : p d = true) :
    List.filter p (if c then [d] else []) = if c then [d] else [] := by
  split <;> simp [h]

theorem filter_ite_neg {c : Prop} [Decidable c] (p : Det0 → Bool) (d : Det0)
    (h : p d = false) :
    List.filter p (if c then [d] else []) = [] := by
  split <;> simp [h]

theorem mem_ite_singleton {c : Prop} [Decidable c] {d x : Det0}
    (h : x ∈ (if c then [d] else [])) : x = d ∧ c := by
  by_cases hc : c <;> simp [hc] at h <;> exact ⟨h, hc⟩

/-- Membership in an `apply_heuristics` output splits into the four rules. -/
theorem mem_apply_heuristics {rf : MRow} {x : Det0} (h : x ∈ apply_heuristics rf) :
    (x.reason = "Port_Scan_Rule" ∧ 20 ≤ getF rf "unique_dst_ports_window" 0 ∧
      x.score = min 1 (getF rf "unique_dst_ports_window" 0 / (20 * 2))) ∨
    (x.reason = "Brute_Force_Rule" ∧ 50 ≤ getF rf "connections_same_dst_window" 0 ∧
      x.score = min 1 (getF rf "connections_same_dst_window" 0 / (50 * 2))) ∨
    (x.reason = "Exfiltration_Rule" ∧ x.score = 1) ∨
    (x.reason = "Beaconing_Rule" ∧ getF rf "beacon_cv_window" 1 ≤ 0.2 ∧
      5 ≤ getF rf "recent_conn_count" 0 ∧
      x.score = min 1 ((5 / max 1 (getF rf "recent_conn_count" 0)) *
        (1 - getF rf "beacon_cv_window" 1))) := by
  simp only [apply_heuristics, List.mem_append] at h
  rcases h with ((h | h) | h) | h
  · rcases mem_ite_singleton h with ⟨hx, hc⟩
    exact Or.inl ⟨by rw [hx], hc, by rw [hx]⟩
  · rcases mem_ite_singleton h with ⟨hx, hc⟩
    exact Or.inr (Or.inl ⟨by rw [hx], hc, by rw [hx]⟩)
  · rcases mem_ite_singleton h with ⟨hx, _⟩
    exact Or.inr (Or.inr (Or.inl ⟨by rw [hx], by rw [hx]⟩))
  · rcases mem_ite_singleton h with ⟨hx, hc⟩
    exact Or.inr (Or.inr (Or.inr ⟨by rw [hx], hc.1, hc.2, by rw [hx]⟩))

/-! ### C3: Port_Scan_Rule threshold exactness -/

/-- C3: `apply_heuristics` emits a `Port_Scan_Rule` detection if and only if
`unique_dst_ports_window >= 20` (exactly 20 triggers it, 19 does not), and
the emitted detection has score `min(1.0, unique/40)` and class guess
`"port_scan"`. -/
theorem C3_port_scan_threshold :
    (∀ rf, (apply_heuristics rf).filter (fun d => d.reason = "Port_Scan_Rule") =
      (if 20 ≤ getF rf "unique_dst_ports_window" 0 then
        [⟨"Port_Scan_Rule", min 1 (getF rf "unique_dst_ports_window" 0 / 40), "port_scan",
          [("unique_ports", EVal.num (getF rf "unique_dst_ports_window" 0))]⟩]
       else [])) ∧
    (apply_heuristics [("unique_dst_ports_window", 20)]).filter
        (fun d => d.reason = "Port_Scan_Rule") =
      [⟨"Port_Scan_Rule", 1 / 2, "port_scan", [("unique_ports", EVal.num 20)]⟩] ∧
    (apply_heuristics [("unique_dst_ports_window", 19)]).filter
        (fun d => d.reason = "Port_Scan_Rule") = [] := by
  have key : ∀ rf, (apply_heuristics rf).filter (fun d => d.reason = "Port_Scan_Rule") =
      (if 20 ≤ getF rf "unique_dst_ports_window" 0 then
        [⟨"Port_Scan_Rule", min 1 (getF rf "unique_dst_ports_window" 0 / 40), "port_scan",
          [("unique_ports", EVal.num (getF rf "unique_dst_ports_window" 0))]⟩]
       else []) := by
    intro rf
    simp only [apply_heuristics, List.filter_append]
    rw [filter_ite_pos _ _ (by simp), filter_ite_neg _ _ (by simp),
      filter_ite_neg _ _ (by simp), filter_ite_neg _ _ (by simp)]
    norm_num
  refine ⟨key, ?_, ?_⟩
  · rw [key]
    have h1 : getF [("unique_dst_ports_window", (20 : ℝ))] "unique_dst_ports_window" 0 = 20 := by
      simp [getF]
    rw [h1]
    norm_num [min_def]
  · rw [key]
    have h1 : getF [("unique_dst_ports_window", (19 : ℝ))] "unique_dst_ports_window" 0 = 19 := by
      simp [getF]
    rw [h1]
    norm_num

/-! ### C10: default values of missing features -/

/-- C10: a missing `beacon_cv_window` entry is read as 1.0 and every other
missing feature as 0, so appending those defaults to any feature mapping
does not change the heuristics output; in particular the empty mapping
produces zero detections. -/
theorem C10_missing_feature_defaults :
    (∀ rf, apply_heuristics (rf ++
        [("unique_dst_ports_window", 0), ("connections_same_dst_window", 0),
         ("outbound_bytes_window", 0), ("inbound_bytes_window", 0),
         ("beacon_cv_window", 1), ("recent_conn_count", 0)]) = apply_heuristics rf) ∧
    apply_heuristics [] = [] := by
  constructor
  · intro rf
    have h1 : getF [("unique_dst_ports_window", (0 : ℝ)), ("connections_same_dst_window", 0),
        ("outbound_bytes_window", 0), ("inbound_bytes_window", 0),
        ("beacon_cv_window", 1), ("recent_conn_count", 0)] "unique_dst_ports_window" 0 = 0 := rfl
    have h2 : getF [("unique_dst_ports_window", (0 : ℝ)), ("connections_same_dst_window", 0),
        ("outbound_bytes_window", 0), ("inbound_bytes_window", 0),
        ("beacon_cv_window", 1), ("recent_conn_count", 0)] "connections_same_dst_window" 0 = 0 := rfl
    have h3 : getF [("unique_dst_ports_window", (0 : ℝ)), ("connections_same_dst_window", 0),
        ("outbound_bytes_window", 0), ("inbound_bytes_window", 0),
        ("beacon_cv_window", 1), ("recent_conn_count", 0)] "outbound_bytes_window" 0 = 0 := rfl
    have h4 : getF [("unique_dst_ports_window", (0 : ℝ)), ("connections_same_dst_window", 0),
        ("outbound_bytes_window", 0), ("inbound_bytes_window", 0),
        ("beacon_cv_window", 1), ("recent_conn_count", 0)] "inbound_bytes_window" 0 = 0 := rfl
    have h5 : getF [("unique_dst_ports_window", (0 : ℝ)), ("connections_same_dst_window", 0),
        ("outbound_bytes_window", 0), ("inbound_bytes_window", 0),
        ("beacon_cv_window", 1), ("recent_conn_count", 0)] "beacon_cv_window" 1 = 1 := rfl
    have h6 : getF [("unique_dst_ports_window", (0 : ℝ)), ("connections_same_dst_window", 0),
        ("outbound_bytes_window", 0), ("inbound_bytes_window", 0),
        ("beacon_cv_window", 1), ("recent_conn_count", 0)] "recent_conn_count" 0 = 0 := rfl
    simp only [apply_heuristics, getF_append, h1, h2, h3, h4, h5, h6]
  · norm_num [apply_heuristics, getF]

/-! ### C9: feature-matrix alignment to the model's expected columns -/

/-- The columns `addMissing` appends: those of `mc` not already present,
first occurrences only, in `mc` order. -/
def newColsAux : List String → List String → List String
  | [], _ => []
  | c :: cs, seen =>
    if c ∈ seen then newColsAux cs seen else c :: newColsAux cs (seen ++ [c])

theorem addMissing_spec (mc : List String) (cols : List String) (rows : List MRow) :
    addMissing mc cols rows =
      (cols ++ newColsAux mc cols,
       rows.map (fun r => r ++ (newColsAux mc cols).map (fun c => (c, (0 : ℝ))))) := by
  induction mc generalizing cols rows with
  | nil => simp [addMissing, newColsAux]
  | cons c cs ih =>
    by_cases h : c ∈ cols
    · have : addMissing (c :: cs) cols rows = addMissing cs cols rows := by
        simp [addMissing, List.foldl_cons, h]
      rw [this, ih]
      simp [newColsAux, h]
    · have : addMissing (c :: cs) cols rows =
          addMissing cs (cols ++ [c]) (rows.map (fun r => r ++ [(c, 0)])) := by
        simp [addMissing, List.foldl_cons, h]
      rw [this, ih]
      simp only [newColsAux, if_neg h, List.map_cons, List.map_map, List.append_assoc,
        List.cons_append, List.nil_append, Prod.mk.injEq]
      refine ⟨trivial, ?_⟩
      apply List.map_congr_left
      intro r _
      simp [Function.comp]

theorem getF_zeros (ks : List String) (k : String) :
    getF (ks.map (fun c => (c, (0 : ℝ)))) k 0 = 0 := by
  induction ks with
  | nil => rfl
  | cons c cs ih =>
    by_cases h : c = k <;> simp [getF, List.find?, h] at ih ⊢ <;> exact ih

theorem getF_default_of_not_mem {r : MRow} {k : String} (h : ¬ k ∈ r.map Prod.fst) (d : ℝ) :
    getF r k d = d := by
  induction r with
  | nil => rfl
  | cons p rs ih =>
    simp only [List.map_cons, List.mem_cons] at h
    push_neg at h
    have hp : ¬ p.1 = k := fun hc => h.1 hc.symm
    simpa [getF, List.find?, hp] using ih h.2

/-- C9: before classifier invocation the matrix is reindexed to the model's
expected feature-column list: each aligned row is exactly the model's
columns in the model's order, carrying the assembled value where the column
was produced, and 0 where the model expects a column the assembler did not
produce (`getF r c 0` is the assembled value when present and 0 otherwise);
assembled columns outside the model's list are dropped. -/
theorem align_spec (mc cols : List String) (rows : List MRow) :
    align mc cols rows = rows.map (fun r => mc.map (fun c => (c, getF r c 0))) := by
  rw [align, addMissing_spec]
  simp only [List.map_map]
  apply List.map_congr_left
  intro r _
  apply List.map_congr_left
  intro c _
  simp [Function.comp, getF_append, getF_zeros]

theorem C9_model_column_alignment (mc cols : List String) (rows : List MRow) :
    align mc cols rows = rows.map (fun r => mc.map (fun c => (c, getF r c 0))) ∧
    (∀ r ∈ align mc cols rows, r.map Prod.fst = mc) ∧
    (∀ r : MRow, ∀ c : String, ¬ c ∈ r.map Prod.fst → getF r c 0 = 0) := by
  have key := align_spec mc cols rows
  refine ⟨key, ?_, fun r c h => getF_default_of_not_mem h 0⟩
  intro r hr
  rw [key] at hr
  rcases List.mem_map.mp hr with ⟨r0, _, hr0⟩
  rw [← hr0]
  simp [Function.comp_def]

/-! ### C5: score bounds -/

/-- A well-behaved classifier: whenever `predict_proba` succeeds, every
returned probability lies in `[0,1]` (the defining property of a
probability vector). -/
def ProbOK (clf : Clf) : Prop :=
  ∀ X P, clf X = some P → ∀ row ∈ P, ∀ p ∈ row, 0 ≤ p ∧ p ≤ 1

theorem heur_score_bounds {rf : MRow} {d : Det0} (h : d ∈ apply_heuristics rf) :
    0 ≤ d.score ∧ d.score ≤ 1 := by
  rcases mem_apply_heuristics h with ⟨_, hc, hs⟩ | ⟨_, hc, hs⟩ | ⟨_, hs⟩ | ⟨_, hc1, hc2, hs⟩
  · rw [hs]
    exact ⟨le_min (by norm_num) (div_nonneg (by linarith) (by norm_num)), min_le_left _ _⟩
  · rw [hs]
    exact ⟨le_min (by norm_num) (div_nonneg (by linarith) (by norm_num)), min_le_left _ _⟩
  · rw [hs]
    norm_num
  · rw [hs]
    refine ⟨le_min (by norm_num) ?_, min_le_left _ _⟩
    have h1 : (0 : ℝ) < 5 / max 1 (getF rf "recent_conn_count" 0) := by
      apply div_pos (by norm_num)
      exact lt_of_lt_of_le (by norm_num) (le_max_left _ _)
    have h2 : (0 : ℝ) ≤ 1 - getF rf "beacon_cv_window" 1 := by
      have h02 : getF rf "beacon_cv_window" 1 ≤ 0.2 := hc1
      norm_num at h02
      linarith
    exact mul_nonneg h1.le h2

theorem argmaxAux_lt (xs : List ℝ) : ∀ i bi bv, bi < i → argmaxAux i bi bv xs < i + xs.length := by
  induction xs with
  | nil =>
    intro i bi bv h
    simpa [argmaxAux] using h
  | cons x xs ih =>
    intro i bi bv h
    simp only [argmaxAux, List.length_cons]
    by_cases hx : bv < x
    · rw [if_pos hx]
      have := ih (i + 1) i x (Nat.lt_succ_self i)
      omega
    · rw [if_neg hx]
      have := ih (i + 1) bi bv (Nat.lt_succ_of_lt h)
      omega

theorem argmaxR_lt {l : List ℝ} {ti : ℕ} (h : argmaxR l = some ti) : ti < l.length := by
  cases l with
  | nil => simp [argmaxR] at h
  | cons x xs =>
    simp only [argmaxR, Option.some.injEq] at h
    have := argmaxAux_lt xs 1 0 x (by norm_num)
    simp only [List.length_cons]
    omega

theorem getD_mem {α : Type} : ∀ (l : List α) (n : ℕ) (d : α), n < l.length → l.getD n d ∈ l
  | x :: xs, 0, d, _ => List.mem_cons_self x xs
  | x :: xs, n + 1, d, h =>
    List.mem_cons_of_mem x (getD_mem xs n d (by simpa using h))

theorem ml_score_bounds {proba : Option (List (List ℝ))} {enc : Option (List String)}
    {i : ℕ} {d : Det0}
    (hp : ∀ P, proba = some P → ∀ row ∈ P, ∀ p ∈ row, 0 ≤ p ∧ p ≤ 1)
    (h : d ∈ mlDetect proba enc i) : 0 ≤ d.score ∧ d.score ≤ 1 := by
  rcases hP : proba with _ | P
  · rw [hP] at h
    simp [mlDetect] at h
  · rw [hP] at h
    simp only [mlDetect] at h
    split at h
    · simp at h
    next probs hrow =>
      split at h
      · simp at h
      next ti hti =>
        split at h
        · simp at h
        next cg hcg =>
          split at h
          next htp =>
            simp only [List.mem_singleton] at h
            subst h
            have hmem : probs.getD ti 0 ∈ probs := getD_mem probs ti 0 (argmaxR_lt hti)
            have hprobs : probs ∈ P := List.get?_mem hrow
            have hub := (hp P hP probs hprobs _ hmem).2
            refine ⟨?_, by simpa using hub⟩
            have h05 : (0 : ℝ) ≤ 0.5 := by norm_num
            simpa using le_trans h05 htp
          next htp => simp at h

theorem run_batch_score_bounds {clf : Clf} {enc : Option (List String)}
    {mcols : Option (List String)} {W : ℚ} {hasRowId : Bool} {raws : List RawRec}
    (hp : ProbOK clf) :
    ∀ d ∈ (run_batch clf enc mcols W hasRowId raws).getD [], 0 ≤ d.score ∧ d.score ≤ 1 := by
  intro d hd
  simp only [run_batch] at hd
  split at hd
  · simp only [Option.getD_some, List.mem_flatMap] at hd
    rcases hd with ⟨p, _, hd⟩
    rcases List.mem_map.mp hd with ⟨d0, hd0, htag⟩
    have hsc : d.score = d0.score := by rw [← htag]; rfl
    rw [hsc]
    rcases List.mem_append.mp hd0 with hh | hm
    · exact heur_score_bounds hh
    · exact ml_score_bounds (fun P hP => hp _ P hP) hm
  · simp at hd

theorem streamStep_dets_bounds {clf : Clf} {enc : Option (List String)}
    {mcols : Option (List String)} {W : ℚ} {hasRowId : Bool}
    (hp : ProbOK clf) (s : List RawRec × List Det) (r : RawRec)
    (hs : ∀ d ∈ s.2, 0 ≤ d.score ∧ d.score ≤ 1) :
    ∀ d ∈ (streamStep clf enc mcols W hasRowId s r).2, 0 ≤ d.score ∧ d.score ≤ 1 := by
  intro d hd
  simp only [streamStep] at hd
  split at hd
  · exact hs d hd
  next rf _ =>
    split at hd
    · exact hs d hd
    next rid _ =>
      simp only [List.mem_append] at hd
      rcases hd with hd | hd
      · exact hs d hd
      · rcases List.mem_map.mp hd with ⟨d0, hd0, htag⟩
        have hsc : d.score = d0.score := by rw [← htag]; rfl
        rw [hsc]
        rcases List.mem_append.mp hd0 with hh | hm
        · exact heur_score_bounds hh
        · exact ml_score_bounds (fun P hP => hp _ P hP) hm

theorem streaming_fold_score_bounds {clf : Clf} {enc : Option (List String)}
    {mcols : Option (List String)} {W : ℚ} {hasRowId : Bool}
    (hp : ProbOK clf) :
    ∀ (raws : List RawRec) (s : List RawRec × List Det),
      (∀ d ∈ s.2, 0 ≤ d.score ∧ d.score ≤ 1) →
      ∀ d ∈ (raws.foldl (streamStep clf enc mcols W hasRowId) s).2,
        0 ≤ d.score ∧ d.score ≤ 1 := by
  intro raws
  induction raws with
  | nil => intro s hs; simpa using hs
  | cons r rs ih =>
    intro s hs
    rw [List.foldl_cons]
    exact ih _ (streamStep_dets_bounds hp s r hs)

/-- C5: every detection emitted by either pipeline has its score in the
closed interval `[0,1]`, for every input and every classifier whose
successful probability outputs are genuine probabilities (entries in
`[0,1]`).  Heuristic-rule scores are bounded unconditionally; the ML
score equals a returned probability. -/
theorem C5_all_scores_in_unit_interval (clf : Clf) (enc : Option (List String))
    (mcols : Option (List String)) (W : ℚ) (hasRowId : Bool) (raws : List RawRec)
    (hp : ProbOK clf) :
    (∀ d ∈ (run_batch clf enc mcols W hasRowId raws).getD [], 0 ≤ d.score ∧ d.score ≤ 1) ∧
    (∀ d ∈ run_streaming clf enc mcols W hasRowId raws, 0 ≤ d.score ∧ d.score ≤ 1) := by
  refine ⟨run_batch_score_bounds hp, ?_⟩
  intro d hd
  exact streaming_fold_score_bounds hp raws ([], []) (by simp) d hd

/-! ### C8: classifier failure does not affect heuristic detections -/

theorem filter_flatMap {α β : Type} (l : List α) (f : α → List β) (p : β → Bool) :
    (l.flatMap f).filter p = l.flatMap (fun a => (f a).filter p) := by
  induction l with
  | nil => rfl
  | cons a l ih => simp [List.flatMap_cons, List.filter_append, ih]

theorem flatMap_congr {α β : Type} {l : List α} {f g : α → List β}
    (h : ∀ a ∈ l, f a = g a) : l.flatMap f = l.flatMap g := by
  induction l with
  | nil => rfl
  | cons a l ih =>
    simp only [List.flatMap_cons]
    rw [h a (List.mem_cons_self a l), ih (fun b hb => h b (List.mem_cons_of_mem a hb))]

theorem heur_reason_not_ml {rf : MRow} {d : Det0} (h : d ∈ apply_heuristics rf) :
    ¬ d.reason = "ML_Detection" := by
  rcases mem_apply_heuristics h with ⟨hr, _⟩ | ⟨hr, _⟩ | ⟨hr, _⟩ | ⟨hr, _⟩ <;>
    rw [hr] <;> decide

theorem ml_reason_is_ml {proba : Option (List (List ℝ))} {enc : Option (List String)}
    {i : ℕ} {d : Det0} (h : d ∈ mlDetect proba enc i) : d.reason = "ML_Detection" := by
  rcases hP : proba with _ | P
  · rw [hP] at h
    simp [mlDetect] at h
  · rw [hP] at h
    simp only [mlDetect] at h
    split at h
    · simp at h
    next probs hrow =>
      split at h
      · simp at h
      next ti hti =>
        split at h
        · simp at h
        next cg hcg =>
          split at h
          next htp =>
            simp only [List.mem_singleton] at h
            rw [h]
          next htp => simp at h

theorem tagged_filter_not_ml {rid : ℤ} {heur ml : List Det0}
    (hh : ∀ d ∈ heur, ¬ d.reason = "ML_Detection")
    (hm : ∀ d ∈ ml, d.reason = "ML_Detection") :
    ((heur ++ ml).map (tagDet rid)).filter (fun d => ¬ d.reason = "ML_Detection") =
      heur.map (tagDet rid) := by
  rw [List.map_append, List.filter_append]
  have h1 : (heur.map (tagDet rid)).filter (fun d => ¬ d.reason = "ML_Detection") =
      heur.map (tagDet rid) := by
    apply List.filter_eq_self.mpr
    intro d hd
    rcases List.mem_map.mp hd with ⟨d0, hd0, htag⟩
    simpa [← htag, tagDet] using hh d0 hd0
  have h2 : (ml.map (tagDet rid)).filter (fun d => ¬ d.reason = "ML_Detection") = [] := by
    apply List.filter_eq_nil_iff.mpr
    intro d hd
    rcases List.mem_map.mp hd with ⟨d0, hd0, htag⟩
    simpa [← htag, tagDet] using hm d0 hd0
  rw [h1, h2, List.append_nil]

theorem mlDetect_none (enc : Option (List String)) (i : ℕ) : mlDetect none enc i = [] := rfl

/-- C8: heuristic detections are exactly the detections of a run with an
always-failing classifier, in both pipelines: filtering the ML detections
out of any run's output yields the output of the same run with a classifier
whose `predict_proba` raises.  In particular a classifier exception or
unusable probability output never suppresses or alters heuristic
detections. -/
theorem C8_classifier_failure_resilience (clf : Clf) (enc : Option (List String))
    (mcols : Option (List String)) (W : ℚ) (hasRowId : Bool) (raws : List RawRec) :
    (run_batch clf enc mcols W hasRowId raws).map
        (fun l => l.filter (fun d => ¬ d.reason = "ML_Detection")) =
      run_batch clfFail enc mcols W hasRowId raws ∧
    (run_streaming clf enc mcols W hasRowId raws).filter
        (fun d => ¬ d.reason = "ML_Detection") =
      run_streaming clfFail enc mcols W hasRowId raws := by
  have hstep : ∀ (s1 s2 : List RawRec × List Det) (r : RawRec),
      s1.1 = s2.1 → s1.2.filter (fun d => ¬ d.reason = "ML_Detection") = s2.2 →
      (streamStep clf enc mcols W hasRowId s1 r).1 =
          (streamStep clfFail enc mcols W hasRowId s2 r).1 ∧
        ((streamStep clf enc mcols W hasRowId s1 r).2).filter
            (fun d => ¬ d.reason = "ML_Detection") =
          (streamStep clfFail enc mcols W hasRowId s2 r).2 := by
    intro s1 s2 r hbuf hdet
    rcases hlast : (assemble_features (load_flows hasRowId (s1.1 ++ [r])) W).1.getLast?
      with _ | rf
    · refine ⟨?_, ?_⟩
      · simp only [streamStep, ← hbuf, hlast]
      · simp only [streamStep, ← hbuf, hlast]
        exact hdet
    · rcases hrid : (if hasRowId then r.row_id else some (-1)) with _ | rid
      · refine ⟨?_, ?_⟩
        · simp only [streamStep, ← hbuf, hlast, hrid]
        · simp only [streamStep, ← hbuf, hlast, hrid]
          exact hdet
      · refine ⟨?_, ?_⟩
        · simp only [streamStep, ← hbuf, hlast, hrid]
        · simp only [streamStep, ← hbuf, hlast, hrid]
          rw [List.filter_append, hdet,
            tagged_filter_not_ml (fun d hd => heur_reason_not_ml hd)
              (fun d hd => ml_reason_is_ml hd)]
          simp only [clfFail, mlDetect_none, List.append_nil]
  constructor
  · simp only [run_batch]
    by_cases hall : (load_flows hasRowId raws).all (fun r => r.row_id.isSome)
    · rw [if_pos hall, if_pos hall]
      simp only [Option.map_some']
      congr 1
      rw [filter_flatMap]
      apply flatMap_congr
      intro p _
      rw [tagged_filter_not_ml (fun d hd => heur_reason_not_ml hd)
        (fun d hd => ml_reason_is_ml hd)]
      simp [clfFail, mlDetect_none]
    · rw [if_neg hall, if_neg hall]
      rfl
  · have : ∀ (rs : List RawRec) (s1 s2 : List RawRec × List Det),
        s1.1 = s2.1 → s1.2.filter (fun d => ¬ d.reason = "ML_Detection") = s2.2 →
        ((rs.foldl (streamStep clf enc mcols W hasRowId) s1).2).filter
            (fun d => ¬ d.reason = "ML_Detection") =
          (rs.foldl (streamStep clfFail enc mcols W hasRowId) s2).2 := by
      intro rs
      induction rs with
      | nil => intro s1 s2 _ hdet; simpa using hdet
      | cons r rs ih =>
        intro s1 s2 hbuf hdet
        rw [List.foldl_cons, List.foldl_cons]
        rcases hstep s1 s2 r hbuf hdet with ⟨h1, h2⟩
        exact ih _ _ h1 h2
    exact this raws ([], []) ([], []) rfl rfl

/-! ### Sorted-window lemmas for eviction (C4, C6) -/

theorem getLast?_mem_self {α : Type} {l : List α} {a : α} (h : l.getLast? = some a) :
    a ∈ l := by
  rcases List.mem_getLast?_eq_getLast (show a ∈ l.getLast? by simp [Option.mem_def, h]) with
    ⟨hne, rfl⟩
  exact List.getLast_mem hne

theorem dropWhile_eq_filter_of_sorted {α : Type} (f : α → ℚ) (θ : ℚ) :
    ∀ l : List α, l.Pairwise (fun a b => f a ≤ f b) →
      l.dropWhile (fun e => f e < θ) = l.filter (fun e => θ ≤ f e) := by
  intro l
  induction l with
  | nil => intro _; rfl
  | cons x xs ih =>
    intro hp
    rcases List.pairwise_cons.mp hp with ⟨hx, hxs⟩
    by_cases h : f x < θ
    · rw [List.dropWhile_cons, if_pos (by simpa using h), List.filter_cons,
        if_neg (by simpa using not_le.mpr h)]
      exact ih hxs
    · rw [List.dropWhile_cons, if_neg (by simpa using h), List.filter_cons,
        if_pos (by simpa using not_lt.mp h)]
      congr 1
      symm
      apply List.filter_eq_self.mpr
      intro a ha
      simpa using le_trans (not_lt.mp h) (hx a ha)

theorem mem_dropWhile_ge {α : Type} (f : α → ℚ) (θ : ℚ) {l : List α}
    (hs : l.Pairwise (fun a b => f a ≤ f b)) {e : α}
    (he : e ∈ l.dropWhile (fun x => f x < θ)) : θ ≤ f e := by
  rw [dropWhile_eq_filter_of_sorted f θ l hs] at he
  simpa using (List.mem_filter.mp he).2

theorem evictOut_idem (θ : ℚ) (l : List OutEvt) :
    evictOut θ (evictOut θ l) = evictOut θ l := by
  induction l with
  | nil => rfl
  | cons x xs ih =>
    by_cases h : x.ts < θ
    · have h1 : evictOut θ (x :: xs) = evictOut θ xs := by
        simp only [evictOut, List.dropWhile_cons]
        rw [if_pos (by simpa using h)]
      rw [h1, ih]
    · have h1 : evictOut θ (x :: xs) = x :: xs := by
        simp only [evictOut, List.dropWhile_cons]
        rw [if_neg (by simpa using h)]
      rw [h1, h1]

theorem evictIn_idem (θ : ℚ) (l : List InEvt) :
    evictIn θ (evictIn θ l) = evictIn θ l := by
  induction l with
  | nil => rfl
  | cons x xs ih =>
    by_cases h : x.ts < θ
    · have h1 : evictIn θ (x :: xs) = evictIn θ xs := by
        simp only [evictIn, List.dropWhile_cons]
        rw [if_pos (by simpa using h)]
      rw [h1, ih]
    · have h1 : evictIn θ (x :: xs) = x :: xs := by
        simp only [evictIn, List.dropWhile_cons]
        rw [if_neg (by simpa using h)]
      rw [h1, h1]

theorem evictPhase_out_src (W : ℚ) (r : RawRec) (st : WState) :
    (evictPhase W r st).out r.src_ip = evictOut (r.ts - W) (st.out r.src_ip) := by
  by_cases h : r.src_ip = r.dst_ip <;>
    simp [evictPhase, updF, h, evictOut_idem]

theorem evictPhase_out_dst (W : ℚ) (r : RawRec) (st : WState) :
    (evictPhase W r st).out r.dst_ip = evictOut (r.ts - W) (st.out r.dst_ip) := by
  by_cases h : r.dst_ip = r.src_ip <;>
    simp [evictPhase, updF, h, evictOut_idem]

theorem evictPhase_inb_src (W : ℚ) (r : RawRec) (st : WState) :
    (evictPhase W r st).inb r.src_ip = evictIn (r.ts - W) (st.inb r.src_ip) := by
  by_cases h : r.src_ip = r.dst_ip <;>
    simp [evictPhase, updF, h, evictIn_idem]

theorem evictPhase_inb_dst (W : ℚ) (r : RawRec) (st : WState) :
    (evictPhase W r st).inb r.dst_ip = evictIn (r.ts - W) (st.inb r.dst_ip) := by
  by_cases h : r.dst_ip = r.src_ip <;>
    simp [evictPhase, updF, h, evictIn_idem]

theorem evictPhase_out_other (W : ℚ) (r : RawRec) (st : WState) {h : String}
    (h1 : ¬ h = r.src_ip) (h2 : ¬ h = r.dst_ip) :
    (evictPhase W r st).out h = st.out h := by
  simp [evictPhase, updF, h1, h2]

theorem evictPhase_inb_other (W : ℚ) (r : RawRec) (st : WState) {h : String}
    (h1 : ¬ h = r.src_ip) (h2 : ¬ h = r.dst_ip) :
    (evictPhase W r st).inb h = st.inb h := by
  simp [evictPhase, updF, h1, h2]

theorem priorOut_sorted {pre : List RawRec} (hs : SortedTs pre) (h : String) :
    (priorOut pre h).Pairwise (fun a b => a.ts ≤ b.ts) := by
  rw [priorOut, List.pairwise_map]
  exact List.Pairwise.filter _ hs

theorem priorIn_sorted {pre : List RawRec} (hs : SortedTs pre) (h : String) :
    (priorIn pre h).Pairwise (fun a b => a.ts ≤ b.ts) := by
  rw [priorIn, List.pairwise_map]
  exact List.Pairwise.filter _ hs

theorem WInv.out_sorted {W : ℚ} {pre : List RawRec} {st : WState}
    (hs : SortedTs pre) (hinv : WInv W pre st) (h : String) :
    (st.out h).Pairwise (fun a b => a.ts ≤ b.ts) := by
  rcases hinv.1 h with ⟨A, hA, _⟩
  exact (priorOut_sorted hs h).sublist (hA ▸ List.sublist_append_right A (st.out h))

theorem WInv.inb_sorted {W : ℚ} {pre : List RawRec} {st : WState}
    (hs : SortedTs pre) (hinv : WInv W pre st) (h : String) :
    (st.inb h).Pairwise (fun a b => a.ts ≤ b.ts) := by
  rcases hinv.2 h with ⟨A, hA, _⟩
  exact (priorIn_sorted hs h).sublist (hA ▸ List.sublist_append_right A (st.inb h))

theorem mem_takeWhile_lt {α : Type} (f : α → ℚ) (θ : ℚ) {l : List α} {e : α}
    (h : e ∈ l.takeWhile (fun x => f x < θ)) : f e < θ := by
  simpa using List.mem_takeWhile_imp h

theorem priorOut_append_one (pre : List RawRec) (r : RawRec) (h : String) :
    priorOut (pre ++ [r]) h =
      priorOut pre h ++ (if r.src_ip = h then [outEvtOf r] else []) := by
  simp only [priorOut, List.filter_append, List.map_append]
  congr 1
  by_cases hr : r.src_ip = h <;> simp [hr]

theorem priorIn_append_one (pre : List RawRec) (r : RawRec) (h : String) :
    priorIn (pre ++ [r]) h =
      priorIn pre h ++ (if r.dst_ip = h then [inEvtOf r] else []) := by
  simp only [priorIn, List.filter_append, List.map_append]
  congr 1
  by_cases hr : r.dst_ip = h <;> simp [hr]

theorem bound_lift {α : Type} (f : α → ℚ) {W : ℚ} {pre : List RawRec} {r : RawRec}
    {A : List α} (hle : ∀ q ∈ pre, q.ts ≤ r.ts)
    (hA : pre = [] → A = [])
    (hb : ∀ e ∈ A, ∀ q ∈ pre.getLast?, f e < q.ts - W) :
    ∀ e ∈ A, f e < r.ts - W := by
  intro e he
  rcases hpre : pre.getLast? with _ | q0
  · rw [hA (List.getLast?_eq_none_iff.mp hpre)] at he
    simp at he
  · have h1 := hb e he q0 (by simp [Option.mem_def, hpre])
    have h2 : q0.ts ≤ r.ts := hle q0 (getLast?_mem_self hpre)
    linarith

theorem takeWhile_append_evictOut (θ : ℚ) (l : List OutEvt) :
    l.takeWhile (fun e => e.ts < θ) ++ evictOut θ l = l :=
  List.takeWhile_append_dropWhile _ _

theorem takeWhile_append_evictIn (θ : ℚ) (l : List InEvt) :
    l.takeWhile (fun e => e.ts < θ) ++ evictIn θ l = l :=
  List.takeWhile_append_dropWhile _ _

theorem winStep_fst (W : ℚ) (st : WState) (r : RawRec) :
    (winStep W st r).1 = recordPhase r (evictPhase W r st) := rfl

theorem winStep_snd (W : ℚ) (st : WState) (r : RawRec) :
    (winStep W st r).2 = winFeats (evictPhase W r st) r := rfl

theorem recordPhase_out_src (r : RawRec) (st : WState) :
    (recordPhase r st).out r.src_ip = st.out r.src_ip ++ [outEvtOf r] := by
  simp [recordPhase, updF]

theorem recordPhase_out_other (r : RawRec) (st : WState) {h : String}
    (hh : ¬ h = r.src_ip) : (recordPhase r st).out h = st.out h := by
  simp [recordPhase, updF, hh]

theorem recordPhase_inb_dst (r : RawRec) (st : WState) :
    (recordPhase r st).inb r.dst_ip = st.inb r.dst_ip ++ [inEvtOf r] := by
  simp [recordPhase, updF]

theorem recordPhase_inb_other (r : RawRec) (st : WState) {h : String}
    (hh : ¬ h = r.dst_ip) : (recordPhase r st).inb h = st.inb h := by
  simp [recordPhase, updF, hh]

theorem inv_step {W : ℚ} {pre : List RawRec} {st : WState} {r : RawRec}
    (hs : SortedTs (pre ++ [r])) (hinv : WInv W pre st) :
    WInv W (pre ++ [r]) (winStep W st r).1 := by
  have hlast_le : ∀ q ∈ pre, q.ts ≤ r.ts := by
    rcases List.pairwise_append.mp hs with ⟨_, _, hx⟩
    intro q hq
    simpa using hx q hq r (by simp)
  have hlastnew : ∀ (q : RawRec), q ∈ (pre ++ [r]).getLast? → q = r := by
    intro q hq
    have h1 := hq
    simp only [Option.mem_def, List.getLast?_concat, Option.some.injEq] at h1
    exact h1.symm
  constructor
  · intro h
    rcases hinv.1 h with ⟨A, hA, hAb⟩
    have hA0 : pre = [] → A = [] := by
      intro hp
      subst hp
      simp only [priorOut, List.filter_nil, List.map_nil] at hA
      exact (List.append_eq_nil.mp hA.symm).1
    have hAr : ∀ e ∈ A, e.ts < r.ts - W := bound_lift (fun e => e.ts) hlast_le hA0 hAb
    have hTb : ∀ e ∈ (st.out h).takeWhile (fun e => e.ts < r.ts - W), e.ts < r.ts - W :=
      fun e he => mem_takeWhile_lt (fun e : OutEvt => e.ts) (r.ts - W) he
    by_cases hsrc : h = r.src_ip
    · refine ⟨A ++ (st.out h).takeWhile (fun e => e.ts < r.ts - W), ?_, ?_⟩
      · have hnew : (winStep W st r).1.out h =
            evictOut (r.ts - W) (st.out h) ++ [outEvtOf r] := by
          rw [winStep_fst, hsrc, recordPhase_out_src, evictPhase_out_src]
        rw [hnew, priorOut_append_one, if_pos hsrc.symm, hA]
        conv_lhs => rw [← takeWhile_append_evictOut (r.ts - W) (st.out h)]
        simp [List.append_assoc]
      · intro e he q hq
        rw [hlastnew q hq]
        rcases List.mem_append.mp he with h1 | h1
        · exact hAr e h1
        · exact hTb e h1
    · by_cases hdst : h = r.dst_ip
      · refine ⟨A ++ (st.out h).takeWhile (fun e => e.ts < r.ts - W), ?_, ?_⟩
        · have hnew : (winStep W st r).1.out h = evictOut (r.ts - W) (st.out h) := by
            have hds : ¬ r.dst_ip = r.src_ip := fun hc => hsrc (hdst ▸ hc)
            rw [winStep_fst, hdst, recordPhase_out_other r _ hds, evictPhase_out_dst]
          rw [hnew, priorOut_append_one, if_neg (fun hc => hsrc hc.symm), hA,
            List.append_nil]
          conv_lhs => rw [← takeWhile_append_evictOut (r.ts - W) (st.out h)]
          simp [List.append_assoc]
        · intro e he q hq
          rw [hlastnew q hq]
          rcases List.mem_append.mp he with h1 | h1
          · exact hAr e h1
          · exact hTb e h1
      · refine ⟨A, ?_, ?_⟩
        · have hnew : (winStep W st r).1.out h = st.out h := by
            rw [winStep_fst, recordPhase_out_other r _ hsrc,
              evictPhase_out_other W r st hsrc hdst]
          rw [hnew, priorOut_append_one, if_neg (fun hc => hsrc hc.symm), hA,
            List.append_nil]
        · intro e he q hq
          rw [hlastnew q hq]
          exact hAr e he
  · intro h
    rcases hinv.2 h with ⟨A, hA, hAb⟩
    have hA0 : pre = [] → A = [] := by
      intro hp
      subst hp
      simp only [priorIn, List.filter_nil, List.map_nil] at hA
      exact (List.append_eq_nil.mp hA.symm).1
    have hAr : ∀ e ∈ A, e.ts < r.ts - W := bound_lift (fun e => e.ts) hlast_le hA0 hAb
    have hTb : ∀ e ∈ (st.inb h).takeWhile (fun e => e.ts < r.ts - W), e.ts < r.ts - W :=
      fun e he => mem_takeWhile_lt (fun e : InEvt => e.ts) (r.ts - W) he
    by_cases hdst : h = r.dst_ip
    · refine ⟨A ++ (st.inb h).takeWhile (fun e => e.ts < r.ts - W), ?_, ?_⟩
      · have hnew : (winStep W st r).1.inb h =
            evictIn (r.ts - W) (st.inb h) ++ [inEvtOf r] := by
          rw [winStep_fst, hdst, recordPhase_inb_dst, evictPhase_inb_dst]
        rw [hnew, priorIn_append_one, if_pos hdst.symm, hA]
        conv_lhs => rw [← takeWhile_append_evictIn (r.ts - W) (st.inb h)]
        simp [List.append_assoc]
      · intro e he q hq
        rw [hlastnew q hq]
        rcases List.mem_append.mp he with h1 | h1
        · exact hAr e h1
        · exact hTb e h1
    · by_cases hsrc : h = r.src_ip
      · refine ⟨A ++ (st.inb h).takeWhile (fun e => e.ts < r.ts - W), ?_, ?_⟩
        · have hnew : (winStep W st r).1.inb h = evictIn (r.ts - W) (st.inb h) := by
            have hsd : ¬ r.src_ip = r.dst_ip := fun hc => hdst (hsrc ▸ hc)
            rw [winStep_fst, hsrc, recordPhase_inb_other r _ hsd, evictPhase_inb_src]
          rw [hnew, priorIn_append_one, if_neg (fun hc => hdst hc.symm), hA,
            List.append_nil]
          conv_lhs => rw [← takeWhile_append_evictIn (r.ts - W) (st.inb h)]
          simp [List.append_assoc]
        · intro e he q hq
          rw [hlastnew q hq]
          rcases List.mem_append.mp he with h1 | h1
          · exact hAr e h1
          · exact hTb e h1
      · refine ⟨A, ?_, ?_⟩
        · have hnew : (winStep W st r).1.inb h = st.inb h := by
            rw [winStep_fst, recordPhase_inb_other r _ hdst,
              evictPhase_inb_other W r st hsrc hdst]
          rw [hnew, priorIn_append_one, if_neg (fun hc => hdst hc.symm), hA,
            List.append_nil]
        · intro e he q hq
          rw [hlastnew q hq]
          exact hAr e he

theorem winFold_snd_length (W : ℚ) : ∀ (l : List RawRec) (st : WState),
    ((winFold W st l).2).length = l.length := by
  intro l
  induction l with
  | nil => intro st; rfl
  | cons r rs ih => intro st; simp [winFold, ih]

theorem winFold_append_fst (W : ℚ) : ∀ (a b : List RawRec) (st : WState),
    (winFold W st (a ++ b)).1 = (winFold W (winFold W st a).1 b).1 := by
  intro a
  induction a with
  | nil => intro b st; rfl
  | cons r rs ih => intro b st; simp [winFold, ih]

theorem init_inv (W : ℚ) : WInv W [] WState.init := by
  constructor <;> intro h <;> exact ⟨[], by simp [priorOut, priorIn, WState.init], by simp⟩

theorem stateAt_inv {W : ℚ} {df : List RawRec} (hs : SortedTs df) :
    ∀ i, WInv W (df.take i) (stateAt W df i) := by
  intro i
  induction i with
  | zero => simpa [stateAt, List.take_zero] using init_inv W
  | succ i ih =>
    rcases hget : df[i]? with _ | x
    · have hlen : df.length ≤ i := by simpa using List.getElem?_eq_none_iff.mp hget
      have h1 : df.take (i + 1) = df.take i := by
        rw [List.take_of_length_le hlen, List.take_of_length_le (Nat.le_succ_of_le hlen)]
      have h2 : stateAt W df (i + 1) = stateAt W df i := by
        unfold stateAt
        rw [List.take_of_length_le hlen, List.take_of_length_le (Nat.le_succ_of_le hlen)]
      rw [h1, h2]
      exact ih
    · have htake : df.take (i + 1) = df.take i ++ [x] := by
        rw [List.take_succ, hget]
        rfl
      have hsort : SortedTs (df.take i ++ [x]) := by
        rw [← htake]
        exact hs.sublist (List.take_sublist _ _)
      have h2 : stateAt W df (i + 1) = (winStep W (stateAt W df i) x).1 := by
        unfold stateAt
        rw [htake, winFold_append_fst]
        rfl
      rw [htake, h2]
      exact inv_step hsort ih

theorem evict_out_src_char {W : ℚ} {pre : List RawRec} {st : WState} {r : RawRec}
    (hspre : SortedTs pre) (hle : ∀ q ∈ pre, q.ts ≤ r.ts) (hinv : WInv W pre st) :
    (evictPhase W r st).out r.src_ip =
      (priorOut pre r.src_ip).filter (fun e => r.ts - W ≤ e.ts) := by
  rw [evictPhase_out_src]
  rcases hinv.1 r.src_ip with ⟨A, hA, hAb⟩
  have hA0 : pre = [] → A = [] := by
    intro hp
    subst hp
    simp only [priorOut, List.filter_nil, List.map_nil] at hA
    exact (List.append_eq_nil.mp hA.symm).1
  have hAr : ∀ e ∈ A, e.ts < r.ts - W := bound_lift (fun e => e.ts) hle hA0 hAb
  rw [hA, List.filter_append]
  have h1 : A.filter (fun e => r.ts - W ≤ e.ts) = [] := by
    apply List.filter_eq_nil_iff.mpr
    intro e he
    simpa using not_le.mpr (hAr e he)
  have h2 : (st.out r.src_ip).filter (fun e => r.ts - W ≤ e.ts) =
      evictOut (r.ts - W) (st.out r.src_ip) :=
    (dropWhile_eq_filter_of_sorted (fun e : OutEvt => e.ts) (r.ts - W) _
      (hinv.out_sorted hspre r.src_ip)).symm
  rw [h1, h2, List.nil_append]

theorem cv_char {W : ℚ} {pre : List RawRec} {st : WState} {r : RawRec}
    (hs : SortedTs (pre ++ [r])) (hinv : WInv W pre st) :
    (winFeats (evictPhase W r st) r).beacon_cv_window = specCv pre r W := by
  have hspre : SortedTs pre := hs.sublist (List.sublist_append_left pre [r])
  have hle : ∀ q ∈ pre, q.ts ≤ r.ts := by
    rcases List.pairwise_append.mp hs with ⟨_, _, hx⟩
    intro q hq
    simpa using hx q hq r (by simp)
  have hd := evict_out_src_char hspre hle hinv
  have htimes : ((evictPhase W r st).out r.src_ip).map (fun e => e.ts) ++ [r.ts] =
      winTimes pre r W := by
    rw [hd, winTimes, priorOut, List.filter_map, List.map_map, List.filter_filter]
    congr 2
    apply List.filter_congr
    intro q _
    by_cases h1 : q.src_ip = r.src_ip <;> by_cases h2 : r.ts - W ≤ q.ts <;>
      simp [outEvtOf, h1, h2] <;> linarith
  simp only [winFeats, specCv]
  rw [htimes]
  by_cases h3 : 3 ≤ (winTimes pre r W).length
  · rw [if_pos h3]
    rw [if_neg (show ¬ (winTimes pre r W).length < 3 by omega)]
  · rw [if_neg h3]
    rw [if_pos (show (winTimes pre r W).length < 3 by omega)]

theorem winFold_cv (W : ℚ) :
    ∀ (rest pre : List RawRec) (st : WState), SortedTs (pre ++ rest) → WInv W pre st →
      ∀ (i : ℕ) (r0 : RawRec), rest[i]? = some r0 →
        (((winFold W st rest).2).getD i ⟨none, 0, 0, 0, 0, 0, 0⟩).beacon_cv_window =
          specCv (pre ++ rest.take i) r0 W := by
  intro rest
  induction rest with
  | nil =>
    intro pre st _ _ i r0 hget
    simp at hget
  | cons r rs ih =>
    intro pre st hs hinv i r0 hget
    have hs1 : SortedTs (pre ++ [r]) := by
      refine hs.sublist ?_
      apply List.Sublist.append_left
      simp
    cases i with
    | zero =>
      have hr : r = r0 := by simpa using hget
      subst hr
      simp only [winFold, List.getD_cons_zero, List.take_zero, List.append_nil]
      rw [winStep_snd]
      exact cv_char hs1 hinv
    | succ i =>
      have hget2 : rs[i]? = some r0 := by simpa using hget
      have hs2 : SortedTs ((pre ++ [r]) ++ rs) := by
        rw [← List.append_cons]
        exact hs
      have hinv2 : WInv W (pre ++ [r]) (winStep W st r).1 := inv_step hs1 hinv
      have := ih (pre ++ [r]) (winStep W st r).1 hs2 hinv2 i r0 hget2
      simp only [winFold, List.getD_cons_succ]
      rw [List.take_succ_cons, List.append_cons]
      exact this

/-! ### C4: the beacon coefficient of variation -/

/-- C4: with host windowing enabled, for a timestamp-sorted input, row `i`'s
`beacon_cv_window` equals the specification formula over the host's prior
outbound flows within the trailing window plus the current flow: exactly 1.0
with fewer than 3 timestamps, otherwise `stddev(deltas)/mean(deltas)` when
the mean inter-arrival delta is positive and 0.0 otherwise (`specCv`). -/
theorem C4_beacon_cv_spec (df : List RawRec) (W : ℚ) (hs : SortedTs df)
    (i : ℕ) (r0 : RawRec) (hget : df[i]? = some r0) :
    ((windowed_host_features df W).getD i ⟨none, 0, 0, 0, 0, 0, 0⟩).beacon_cv_window =
      specCv (df.take i) r0 W := by
  have := winFold_cv W df [] WState.init (by simpa using hs) (init_inv W) i r0 hget
  simpa [windowed_host_features] using this

/-! ### C6: window eviction invariant -/

/-- C6: for timestamp-sorted input, after the eviction step performed for
row `i` (arriving at time `ts`), every event retained in the four affected
deques (outbound and inbound windows of the flow's source and destination
hosts) has `timestamp ≥ ts - window_seconds`; and in the concrete scenario
of one host with events at t = 0, 10, 70 and `window_seconds = 60`, the
event at t = 0 contributes to no window feature computed at t = 70 (the
feature row at t = 70 is identical with and without that event). -/
theorem C6_eviction_invariant :
    (∀ (W : ℚ) (df : List RawRec), SortedTs df →
      ∀ (i : ℕ) (r0 : RawRec), df[i]? = some r0 →
        (∀ e ∈ (evictPhase W r0 (stateAt W df i)).out r0.src_ip, r0.ts - W ≤ e.ts) ∧
        (∀ e ∈ (evictPhase W r0 (stateAt W df i)).inb r0.src_ip, r0.ts - W ≤ e.ts) ∧
        (∀ e ∈ (evictPhase W r0 (stateAt W df i)).out r0.dst_ip, r0.ts - W ≤ e.ts) ∧
        (∀ e ∈ (evictPhase W r0 (stateAt W df i)).inb r0.dst_ip, r0.ts - W ≤ e.ts)) ∧
    (windowed_host_features [recC0, recC1, recC2] 60).getD 2 ⟨none, 0, 0, 0, 0, 0, 0⟩ =
      (windowed_host_features [recC1, recC2] 60).getD 1 ⟨none, 0, 0, 0, 0, 0, 0⟩ := by
  constructor
  · intro W df hs i r0 _
    have hinv := @stateAt_inv W df hs i
    have hst : SortedTs (df.take i) := hs.sublist (List.take_sublist _ _)
    refine ⟨?_, ?_, ?_, ?_⟩
    · intro e he
      rw [evictPhase_out_src] at he
      exact mem_dropWhile_ge (fun e : OutEvt => e.ts) _ (hinv.out_sorted hst r0.src_ip) he
    · intro e he
      rw [evictPhase_inb_src] at he
      exact mem_dropWhile_ge (fun e : InEvt => e.ts) _ (hinv.inb_sorted hst r0.src_ip) he
    · intro e he
      rw [evictPhase_out_dst] at he
      exact mem_dropWhile_ge (fun e : OutEvt => e.ts) _ (hinv.out_sorted hst r0.dst_ip) he
    · intro e he
      rw [evictPhase_inb_dst] at he
      exact mem_dropWhile_ge (fun e : InEvt => e.ts) _ (hinv.inb_sorted hst r0.dst_ip) he
  · norm_num [windowed_host_features, winFold, winStep, winFeats, evictPhase, recordPhase,
      updF, evictOut, evictIn, WState.init, recC0, recC1, recC2, outEvtOf, inEvtOf,
      truncInt, List.dropWhile]

/-! ### C7: windowing-disabled fallback -/

theorem append_ne_of_head_ne {p k : String} {c c' : Char} (hp : p.data.head? = some c)
    (hk : k.data.head? = some c') (hcc : ¬ c = c') (v : String) : ¬ (p ++ v) = k := by
  intro h
  apply hcc
  have hd : p.data ++ v.data = k.data := by
    rw [← String.data_append, h]
  rcases hpd : p.data with _ | ⟨x, xs⟩
  · rw [hpd] at hp
    simp at hp
  · rw [hpd] at hp hd
    simp only [List.head?_cons, Option.some.injEq] at hp
    rw [List.cons_append] at hd
    rw [← hd] at hk
    simp only [List.head?_cons, Option.some.injEq] at hk
    rw [← hp, ← hk]

theorem winKey_head {k : String} (hk : k ∈ winKeys) :
    k.data.head? = some 'u' ∨ k.data.head? = some 'c' ∨ k.data.head? = some 'o' ∨
    k.data.head? = some 'i' ∨ k.data.head? = some 'b' ∨ k.data.head? = some 'r' := by
  simp only [winKeys, List.mem_cons, List.not_mem_nil, or_false] at hk
  rcases hk with rfl | rfl | rfl | rfl | rfl | rfl
  · exact Or.inl rfl
  · exact Or.inr (Or.inl rfl)
  · exact Or.inr (Or.inr (Or.inl rfl))
  · exact Or.inr (Or.inr (Or.inr (Or.inl rfl)))
  · exact Or.inr (Or.inr (Or.inr (Or.inr (Or.inl rfl))))
  · exact Or.inr (Or.inr (Or.inr (Or.inr (Or.inr rfl))))

theorem proto_ne_winKey {k : String} (hk : k ∈ winKeys) (v : String) :
    ¬ ("proto_" ++ v) = k := by
  have hp : ("proto_" : String).data.head? = some 'p' := rfl
  rcases winKey_head hk with h | h | h | h | h | h <;>
    exact append_ne_of_head_ne hp h (by decide) v

theorem flags_ne_winKey {k : String} (hk : k ∈ winKeys) (v : String) :
    ¬ ("flags_" ++ v) = k := by
  have hp : ("flags_" : String).data.head? = some 'f' := rfl
  rcases winKey_head hk with h | h | h | h | h | h <;>
    exact append_ne_of_head_ne hp h (by decide) v

theorem winKey_ne_basicNum {k : String} (hk : k ∈ winKeys) {b : String}
    (hb : b ∈ basicNumKeys) : ¬ b = k := by
  simp only [winKeys, List.mem_cons, List.not_mem_nil, or_false] at hk
  simp only [basicNumKeys, List.mem_cons, List.not_mem_nil, or_false] at hb
  rcases hk with rfl | rfl | rfl | rfl | rfl | rfl <;>
    rcases hb with rfl | rfl | rfl | rfl | rfl | rfl | rfl | rfl | rfl <;> decide

theorem getF_zeros_mem (ks : List String) (k : String) (hk : k ∈ ks) (d : ℝ) :
    getF (ks.map (fun c => (c, (0 : ℝ)))) k d = 0 := by
  induction ks with
  | nil => simp at hk
  | cons c cs ih =>
    by_cases h : c = k
    · simp [getF, List.find?, h]
    · rcases List.mem_cons.mp hk with h1 | h1
      · exact absurd h1.symm h
      · simpa [getF, List.find?, h] using ih h1

theorem winVals_zero (rid : Option ℤ) :
    winVals ⟨rid, 0, 0, 0, 0, 0, 0⟩ = winKeys.map (fun k => (k, (0 : ℝ))) := by
  simp [winVals, winKeys]

theorem getF_basic_skip {df : List RawRec} {b : BasicRow}
    (hb : b ∈ (basic_features df).1) {k : String} (hk : k ∈ winKeys) (d : ℝ) :
    getF (b.vals.map (fun p => (p.1, (p.2 : ℝ)))) k d = d := by
  apply getF_default_of_not_mem
  intro hmem
  simp only [basic_features, List.mem_map] at hb
  rcases hb with ⟨r, hr, rfl⟩
  simp only [List.map_map, List.map_append, List.mem_append, List.mem_map,
    List.map_cons, List.map_nil, List.mem_cons, List.not_mem_nil, or_false,
    Function.comp] at hmem
  rcases hmem with ((h | h | h | h | h | h | h | h | h) | ⟨v, _, hv⟩) | ⟨v, _, hv⟩
  · exact winKey_ne_basicNum hk (by simp [basicNumKeys]) h.symm
  · exact winKey_ne_basicNum hk (by simp [basicNumKeys]) h.symm
  · exact winKey_ne_basicNum hk (by simp [basicNumKeys]) h.symm
  · exact winKey_ne_basicNum hk (by simp [basicNumKeys]) h.symm
  · exact winKey_ne_basicNum hk (by simp [basicNumKeys]) h.symm
  · exact winKey_ne_basicNum hk (by simp [basicNumKeys]) h.symm
  · exact winKey_ne_basicNum hk (by simp [basicNumKeys]) h.symm
  · exact winKey_ne_basicNum hk (by simp [basicNumKeys]) h.symm
  · exact winKey_ne_basicNum hk (by simp [basicNumKeys]) h.symm
  · exact proto_ne_winKey hk v hv
  · exact flags_ne_winKey hk v hv

/-- C7: when `src_ip` takes at most one distinct value over the whole input
(including the empty-string fill used when the column is absent), every
assembled row carries 0 in all six windowed features, and `apply_heuristics`
emits no detection at all on such a row (no rule conditioned on a windowed
feature fires). -/
theorem C7_windowing_disabled_fallback (df : List RawRec) (W : ℚ)
    (hsrc : (df.map (fun r => r.src_ip)).dedup.length ≤ 1) :
    ∀ row ∈ (assemble_features df W).1,
      (getF row "unique_dst_ports_window" 0 = 0 ∧
       getF row "connections_same_dst_window" 0 = 0 ∧
       getF row "outbound_bytes_window" 0 = 0 ∧
       getF row "inbound_bytes_window" 0 = 0 ∧
       getF row "beacon_cv_window" 1 = 0 ∧
       getF row "recent_conn_count" 0 = 0) ∧
      apply_heuristics row = [] := by
  intro row hrow
  have hno : ¬ 1 < (df.map (fun r => r.src_ip)).dedup.length := not_lt.mpr hsrc
  simp only [assemble_features, if_neg hno] at hrow
  rcases List.mem_flatMap.mp hrow with ⟨b, hb, hrow2⟩
  have hrowshape : row = b.vals.map (fun p => (p.1, (p.2 : ℝ))) ++
      winKeys.map (fun k => (k, (0 : ℝ))) := by
    split at hrow2
    · simpa using hrow2
    · rcases List.mem_map.mp hrow2 with ⟨w, hw, hweq⟩
      have hwmem := (List.mem_filter.mp hw).1
      rcases List.mem_map.mp hwmem with ⟨b2, _, hw2⟩
      rw [← hweq, ← hw2, winVals_zero]
  have hkey : ∀ k ∈ winKeys, ∀ d : ℝ, getF row k d = 0 := by
    intro k hk d
    rw [hrowshape, getF_append, getF_basic_skip hb hk, getF_zeros_mem _ _ hk]
  have h1 := hkey "unique_dst_ports_window" (by simp [winKeys]) 0
  have h2 := hkey "connections_same_dst_window" (by simp [winKeys]) 0
  have h3 := hkey "outbound_bytes_window" (by simp [winKeys]) 0
  have h4 := hkey "inbound_bytes_window" (by simp [winKeys]) 0
  have h5 := hkey "beacon_cv_window" (by simp [winKeys]) 1
  have h6 := hkey "recent_conn_count" (by simp [winKeys]) 0
  refine ⟨⟨h1, h2, h3, h4, h5, h6⟩, ?_⟩
  simp only [apply_heuristics, h1, h2, h3, h4, h5, h6]
  norm_num

/-! ### C2: streaming per-record failure behavior -/

theorem streamStep_rowid_none (clf : Clf) (enc : Option (List String))
    (mcols : Option (List String)) (W : ℚ) (buf : List RawRec) (dets : List Det)
    (r : RawRec) (hr : r.row_id = none) :
    streamStep clf enc mcols W true (buf, dets) r = (buf ++ [r], dets) := by
  simp only [streamStep, hr]
  split
  · rfl
  · simp

/-- C2 counterexample: a streaming record whose `row_id` is NaN is skipped
(no detection emitted), but the retained buffer is NOT left as it was: the
record was appended before the failing `int()` conversion and the trim is
skipped, so the buffer grows from `[]` to `[recBad]`. -/
theorem C2_counterexample_state_updated :
    (streamStep clfFail none none 60 true ([], []) recBad).1 ≠ [] ∧
    (streamStep clfFail none none 60 true ([], []) recBad).1 = [recBad] ∧
    (streamStep clfFail none none 60 true ([], []) recBad).2 = [] := by
  have h := streamStep_rowid_none clfFail none none 60 [] [] recBad rfl
  rw [h]
  refine ⟨by simp, by simp, rfl⟩

/-- C2 (amended): in streaming mode, when extracting the arriving record's
`row_id` fails (a missing/NaN value with the column present), no detection
is emitted for it and processing of subsequent records continues from the
resulting state; however the skipped record REMAINS appended to the
retained buffer (the append happens before the failure and the trim is
skipped), so the window state is not left exactly as it was. -/
theorem C2_amended_skip_behavior (clf : Clf) (enc : Option (List String))
    (mcols : Option (List String)) (W : ℚ) (buf : List RawRec) (dets : List Det)
    (r : RawRec) (hr : r.row_id = none) :
    streamStep clf enc mcols W true (buf, dets) r = (buf ++ [r], dets) ∧
    ∀ rest : List RawRec,
      (r :: rest).foldl (streamStep clf enc mcols W true) (buf, dets) =
        rest.foldl (streamStep clf enc mcols W true) (buf ++ [r], dets) := by
  have h := streamStep_rowid_none clf enc mcols W buf dets r hr
  exact ⟨h, fun rest => by rw [List.foldl_cons, h]⟩

/-- Witness for the amended C2 theorem at a concrete record. -/
theorem C2_amended_skip_behavior_witness :
    recBad.row_id = none ∧
    streamStep clfFail none none 60 true ([], []) recBad = ([recBad], []) := by
  refine ⟨rfl, ?_⟩
  have h := (C2_amended_skip_behavior clfFail none none 60 [] [] recBad rfl).1
  simpa using h

theorem load_flows_A : load_flows true [recA1, recA2] = [recA1, recA2] := by decide

theorem win_A : windowed_host_features [recA1, recA2] 60 =
    [⟨some 1, 1, 1, 100, 0, 1, 1⟩, ⟨some 2, 1, 1, 100, 0, 1, 1⟩] := by
  norm_num [windowed_host_features, winFold, winStep, winFeats, evictPhase, recordPhase,
    updF, evictOut, evictIn, WState.init, recA1, recA2, outEvtOf, inEvtOf, truncInt,
    List.dropWhile]

theorem assemble_A : assemble_features [recA1, recA2] 60 = ([xA1, xA2], colsA) := by
  simp only [assemble_features, win_A]
  norm_num [basic_features, sortStrs, insertStr, hourOf, winVals, winKeys, basicNumKeys,
    recA1, recA2, List.dedup_cons_of_not_mem, List.dedup_cons_of_mem, List.dedup_nil]
  simp [xA1, xA2, colsA, List.filter, truncInt]

theorem align_A : align colsA colsA [xA1, xA2] = [xA1, xA2] := by
  rw [align_spec]
  simp [colsA, xA1, xA2, getF, List.find?]

theorem heur_xA1 : apply_heuristics xA1 =
    [⟨"Exfiltration_Rule", 1, "exfiltration",
      [("outbound_bytes", EVal.num 100), ("inbound_bytes", EVal.num 0)]⟩] := by
  simp [apply_heuristics, xA1, getF, List.find?]
  norm_num

theorem heur_xA2 : apply_heuristics xA2 =
    [⟨"Exfiltration_Rule", 1, "exfiltration",
      [("outbound_bytes", EVal.num 100), ("inbound_bytes", EVal.num 0)]⟩] := by
  simp [apply_heuristics, xA2, getF, List.find?]
  norm_num

theorem batch_eval_A : run_batch clfFail none none 60 true [recA1, recA2] =
    some [detA1, detA2] := by
  simp only [run_batch, load_flows_A, assemble_A, Option.getD_none, align_A]
  simp [List.enum, List.enumFrom, heur_xA1, heur_xA2, mlDetect, clfFail, tagDet,
    recA1, recA2, detA1, detA2]

theorem load_flows_A1 : load_flows true [recA1] = [recA1] := by decide

theorem assemble_A1 : assemble_features [recA1] 60 = ([yA1], colsA) := by
  simp only [assemble_features]
  norm_num [basic_features, sortStrs, insertStr, hourOf, winKeys, basicNumKeys,
    recA1, List.dedup_cons_of_not_mem, List.dedup_cons_of_mem, List.dedup_nil]
  simp [yA1, colsA, List.filter, winVals]

theorem heur_yA1 : apply_heuristics yA1 = [] := by
  simp [apply_heuristics, yA1, getF, List.find?]

theorem step1_A : streamStep clfFail none none 60 true ([], []) recA1 = ([recA1], []) := by
  simp only [streamStep, List.nil_append, load_flows_A1, assemble_A1]
  simp [heur_yA1, mlDetect, clfFail, tagDet, recA1]

theorem step2_A : streamStep clfFail none none 60 true ([recA1], []) recA2 =
    ([recA2], [detA2]) := by
  simp only [streamStep, List.cons_append, List.nil_append, load_flows_A, assemble_A]
  simp [heur_xA2, mlDetect, clfFail, tagDet, recA1, recA2, detA2]
  norm_num [List.filter]

theorem stream_eval_A : run_streaming clfFail none none 60 true [recA1, recA2] = [detA2] := by
  simp only [run_streaming, List.foldl_cons, List.foldl_nil, step1_A, step2_A]

/-- C1: the batch and streaming pipelines disagree on a concrete two-record
input (two distinct sources, far apart in time): batch emits an
`Exfiltration_Rule` detection for each row, streaming emits one only for the
second row, because the windowing-disabled check (`src_ip` nunique > 1) is
evaluated over the retained buffer rather than over the whole input.  This
refutes the batch/streaming equivalence contract and exhibits both outputs. -/
theorem C1_batch_streaming_disagree :
    run_batch clfFail none none 60 true [recA1, recA2] = some [detA1, detA2] ∧
    run_streaming clfFail none none 60 true [recA1, recA2] = [detA2] ∧
    run_batch clfFail none none 60 true [recA1, recA2] ≠
      some (run_streaming clfFail none none 60 true [recA1, recA2]) := by
  refine ⟨batch_eval_A, stream_eval_A, ?_⟩
  rw [batch_eval_A, stream_eval_A]
  intro h
  have h2 := congrArg (fun o => (Option.getD o []).length) h
  simp at h2

/-! ### Witnesses -/

/-- Witness for C4 at the concrete three-event scenario. -/
theorem C4_beacon_cv_spec_witness :
    SortedTs [recC0, recC1, recC2] ∧
    ((windowed_host_features [recC0, recC1, recC2] 60).getD 2
        ⟨none, 0, 0, 0, 0, 0, 0⟩).beacon_cv_window =
      specCv ([recC0, recC1, recC2].take 2) recC2 60 := by
  refine ⟨by unfold SortedTs; decide, ?_⟩
  exact C4_beacon_cv_spec [recC0, recC1, recC2] 60 (by unfold SortedTs; decide) 2 recC2
    (by decide)

/-- Witness for C5 with the always-failing classifier on a concrete input. -/
theorem C5_all_scores_in_unit_interval_witness :
    ProbOK clfFail ∧
    (∀ d ∈ (run_batch clfFail none none 60 true [recA1, recA2]).getD [],
        0 ≤ d.score ∧ d.score ≤ 1) ∧
    (∀ d ∈ run_streaming clfFail none none 60 true [recA1, recA2],
        0 ≤ d.score ∧ d.score ≤ 1) := by
  have hp : ProbOK clfFail := by
    intro X P h row hrow p hpr
    simp [clfFail] at h
  exact ⟨hp,
    (C5_all_scores_in_unit_interval clfFail none none 60 true [recA1, recA2] hp).1,
    (C5_all_scores_in_unit_interval clfFail none none 60 true [recA1, recA2] hp).2⟩

/-- Witness for C7 on a two-record input with a single distinct source. -/
theorem C7_windowing_disabled_fallback_witness :
    ([recC0, recC1].map (fun r => r.src_ip)).dedup.length ≤ 1 ∧
    ∀ row ∈ (assemble_features [recC0, recC1] 60).1, apply_heuristics row = [] := by
  refine ⟨by decide, fun row hrow => ?_⟩
  exact (C7_windowing_disabled_fallback [recC0, recC1] 60 (by decide) row hrow).2
